import Mathlib

/-!
# A shallow embedding of `sh.c`

The read / parse / execute loop of the shell, with its three mechanisms: the growing line
buffer (`sh_read_line`), the tokenizer (`sh_split_line`) and the dispatcher
(`sh_execute`, the three built-ins and `sh_launch`).

Conventions of the embedding
* a C `char` is a byte, `Fin 256`; a C string is the list of its bytes before the terminator;
* a heap block is the list of its cells, a cell that was never written being `none`;
  a store outside the block, a load of a cell never written and an overflowing `int`
  addition are undefined behaviour of the C program and end the run with a `Fault`;
* `malloc` and `realloc` succeed (the branches that report an allocation error and leave the
  process are not part of the model);
* what the process does to the outside (writes, system calls) is appended to `World.log`.
-/

namespace Sh

/-! ## Characters, strings, faults -/

/-- A C `char`, seen as `unsigned char`: what `getchar` yields besides `EOF`. -/
abbrev CChar := Fin 256

/-- The contents of a C string: the bytes before its terminating NUL. -/
abbrev Str := List CChar

/-- The bytes of a string literal of the source. -/
def lit (s : String) : Str := s.toList.map (fun c => Fin.ofNat c.toNat)

/-- Ways in which a run of the C program leaves defined behaviour, or never returns. -/
inductive Fault where
  /-- signed `int` overflow -/
  | intOverflow
  /-- access outside the bounds of a heap block -/
  | outOfBounds
  /-- read of a cell that was never written -/
  | uninitRead
  /-- `waitpid` never reports the end of the child -/
  | blocked
  /-- the bound on the number of loop iterations of the model was too small -/
  | outOfFuel
  deriving DecidableEq

/-- What the source leaves to the compilation target. -/
structure Machine where
  /-- the value of `sizeof(char*)` -/
  ptrSize : Nat
  /-- the address of the string literal `"\n"` that `sh_read_line` compares `c` with -/
  nlLit : Nat

/-- The largest `int` (32 bits). -/
def INT_MAX : Nat := 2147483647

/-- Addition of two non-negative `int`s. -/
def intAdd (a b : Nat) : Except Fault Nat :=
  if a + b ≤ INT_MAX then .ok (a + b) else .error .intOverflow

/-! ## Heap blocks -/

/-- A heap block: its cells in order, `none` for a cell that was never written. -/
abbrev Block (α : Type) := List (Option α)

/-- The call `malloc(bytes)` for cells of `cell` bytes each. -/
def malloc {α : Type} (cell bytes : Nat) : Block α := List.replicate (bytes / cell) none

/-- The call `realloc(b, bytes)`: the block now has `bytes / cell` cells; the cells that fit
are kept, the others are lost, new cells are indeterminate. -/
def realloc {α : Type} (cell : Nat) (b : Block α) (bytes : Nat) : Block α :=
  b.take (bytes / cell) ++ List.replicate (bytes / cell - b.length) none

/-- The assignment `b[i] = v`. -/
def store {α : Type} (b : Block α) (i : Nat) (v : α) : Except Fault (Block α) :=
  if i < b.length then .ok (b.set i (some v)) else .error .outOfBounds

/-- The value of `b[i]`. -/
def load {α : Type} (b : Block α) (i : Nat) : Except Fault α :=
  match b.get? i with
  | none => .error .outOfBounds
  | some none => .error .uninitRead
  | some (some v) => .ok v

/-- The C string stored at the start of a block of characters. -/
def cstr : Block CChar → Except Fault Str
  | [] => .error .outOfBounds
  | none :: _ => .error .uninitRead
  | some c :: rest => if c = 0 then .ok [] else (cstr rest).map (c :: ·)

/-! ## Reading a line (`sh_read_line`) -/

/-- Initial size and growth step of the line buffer. -/
def BUFFERSIZE : Nat := 1024

/-- The `while(1)` loop of `sh_read_line`, over the characters still unread on stdin (the
empty list is end of stream: `getchar` returns `EOF`). It returns the buffer and the
unread rest of the stream. The test `c == "\n"` of the source compares the character code
with the address of a string literal. -/
def read_loop (m : Machine) :
    List CChar → Nat → Nat → Block CChar → Except Fault (Block CChar × List CChar)
  | [], _, position, buffer => do
      let buffer ← store buffer position 0
      pure (buffer, [])
  | c :: rest, size, position, buffer =>
      if c.val = m.nlLit then do
        let buffer ← store buffer position 0
        pure (buffer, rest)
      else do
        let buffer ← store buffer position c
        let position ← intAdd position 1
        if position ≥ size then do
          let size ← intAdd size BUFFERSIZE
          read_loop m rest size position (realloc 1 buffer size)
        else
          read_loop m rest size position buffer

/-- The function `sh_read_line`, on the unread characters of stdin. -/
def sh_read_line (m : Machine) (stdin : List CChar) :
    Except Fault (Block CChar × List CChar) :=
  read_loop m stdin BUFFERSIZE 0 (malloc 1 (1 * BUFFERSIZE))

/-! ## Splitting a line (`sh_split_line`) -/

/-- Initial number of token slots, and growth step of `size`. -/
def TOKENSIZE : Nat := 64

/-- The delimiters `" \t\n\r\a"`. -/
def DELIM : Str := [32, 9, 10, 13, 7]

/-- A `char *` stored in the token array. -/
inductive StrPtr where
  /-- the null pointer -/
  | null
  /-- a pointer to a string -/
  | str (s : Str)
  deriving DecidableEq

/-- One call of the C library function `strtok` on the string `s` still to be scanned: skip
the leading delimiters; if nothing is left the result is `NULL`; otherwise the token runs up
to the next delimiter, which is overwritten by NUL, and the scan resumes behind it. The
second component is the string left for the next call `strtok(NULL, delim)`. -/
def strtok (s delim : Str) : Option Str × Str :=
  let s1 := s.dropWhile (fun c => decide (c ∈ delim))
  if s1 = [] then (none, [])
  else (some (s1.takeWhile (fun c => !decide (c ∈ delim))),
        (s1.dropWhile (fun c => !decide (c ∈ delim))).drop 1)

/-- The loop `while(token != NULL)` of `sh_split_line`, followed by the store of the end
marker. `size` is kept in the unit the source keeps it in: it is both the bound compared with
`position` and the byte count handed to `realloc`. -/
def split_loop (m : Machine) :
    Nat → Option Str → Str → Nat → Nat → Block StrPtr → Except Fault (Block StrPtr)
  | _, none, _, _, position, tokens => store tokens position .null
  | 0, some _, _, _, _, _ => .error .outOfFuel
  | fuel + 1, some token, rest, size, position, tokens => do
      let tokens ← store tokens position (.str token)
      let position ← intAdd position 1
      if position ≥ size then do
        let size ← intAdd size TOKENSIZE
        let tokens := realloc m.ptrSize tokens size
        split_loop m fuel (strtok rest DELIM).1 (strtok rest DELIM).2 size position tokens
      else
        split_loop m fuel (strtok rest DELIM).1 (strtok rest DELIM).2 size position tokens

/-- The function `sh_split_line`. Every pass through the loop consumes at least one character
of the line, so `length + 1` passes are enough. -/
def sh_split_line (m : Machine) (line : Block CChar) : Except Fault (Block StrPtr) := do
  let s ← cstr line
  split_loop m (s.length + 1) (strtok s DELIM).1 (strtok s DELIM).2 TOKENSIZE 0
    (malloc m.ptrSize (m.ptrSize * TOKENSIZE))

/-- The array of a token sequence: the tokens in order, then the end marker `NULL`. -/
def argv (ts : List Str) : Block StrPtr := ts.map (fun t => some (.str t)) ++ [some .null]

/-- A line buffer holding the string `s`: its bytes, then the terminating NUL. -/
def cline (s : Str) : Block CChar := s.map some ++ [some 0]

/-! ## The process and its environment -/

/-- The error numbers the model distinguishes. -/
inductive Errno where
  /-- bad address -/
  | EFAULT
  /-- no such file or directory -/
  | ENOENT
  /-- resource temporarily unavailable -/
  | EAGAIN
  /-- any other error -/
  | other (n : Nat)
  deriving DecidableEq

/-- A `const char *` handed to a system call. -/
inductive CPtr where
  /-- a pointer to a string -/
  | str (s : Str)
  /-- an integer converted to a pointer -/
  | int (n : Nat)
  deriving DecidableEq

/-- What one call of `waitpid(pid, &status, WUNTRACED)` reports about the child. -/
inductive WaitStatus where
  /-- `WIFEXITED`: the child left with this code -/
  | exited (code : Nat)
  /-- `WIFSIGNALED`: the child was ended by this signal -/
  | signaled (sig : Nat)
  /-- `WIFSTOPPED`: the child was stopped by this signal -/
  | stopped (sig : Nat)
  deriving DecidableEq

/-- What becomes of one call of `fork`, as the environment decides it. -/
inductive Spawn where
  /-- `fork` returns -1 -/
  | forkFails (e : Errno)
  /-- the child exists and its `execvp` returns -1 -/
  | execFails (e : Errno)
  /-- the child runs the program; `waitpid` reports these states, in this order -/
  | runs (reports : List WaitStatus)
  deriving DecidableEq

/-- What the shell does to the outside. -/
inductive Effect where
  /-- bytes written to standard output -/
  | out (s : Str)
  /-- bytes written to standard error by `fprintf` -/
  | err (s : Str)
  /-- the call `perror(tag)`: the tag and the message of `errno` on standard error -/
  | perror (tag : Str) (e : Errno)
  /-- the system call `chdir` with this argument -/
  | chdir (p : CPtr)
  /-- the system call `fork` -/
  | fork
  /-- in the child: `execvp(file, args)` -/
  | childExec (file : StrPtr) (args : List Str)
  /-- in the child: `perror(tag)` -/
  | childPerror (tag : Str) (e : Errno)
  /-- in the child: `exit(code)` -/
  | childExit (code : Nat)
  deriving DecidableEq

/-- The state of the shell process and of what it depends on. -/
structure World where
  /-- the characters not yet read from standard input -/
  stdin : List CChar
  /-- the working directory -/
  cwd : Str
  /-- the paths that `chdir` accepts -/
  dirs : List Str
  /-- the outcome of each coming `fork`, in order -/
  spawns : List Spawn
  /-- the value of `errno` -/
  errno : Errno
  /-- the effects so far, oldest first -/
  log : List Effect
  deriving DecidableEq

/-- Record an effect. -/
def World.emit (w : World) (e : Effect) : World := { w with log := w.log ++ [e] }

/-- The system call `chdir(p)`: 0 and the new working directory when `p` points to the name
of an accessible directory, -1 and `errno` otherwise. An integer converted to a pointer is
not the address of a string: the call fails with `EFAULT`. -/
def chdir (p : CPtr) (w : World) : Int × World :=
  let w := w.emit (.chdir p)
  match p with
  | .int _ => (-1, { w with errno := .EFAULT })
  | .str s => if s ∈ w.dirs then (0, { w with cwd := s }) else (-1, { w with errno := .ENOENT })

/-- The library call `perror(tag)`. -/
def perror (tag : Str) (w : World) : World := w.emit (.perror tag w.errno)

/-- The value of `EXIT_FAILURE`. -/
def EXIT_FAILURE : Nat := 1

/-- The strings of a NULL-terminated array, as `execvp` reads them. -/
def readArgv : Block StrPtr → Except Fault (List Str)
  | [] => .error .outOfBounds
  | none :: _ => .error .uninitRead
  | some .null :: _ => .ok []
  | some (.str s) :: rest => (readArgv rest).map (s :: ·)

/-! ## Launching a program (`sh_launch`) -/

/-- The loop `do { waitpid(...) } while(!WIFEXITED(status) && !WIFSIGNALED(status))` over the
states that `waitpid` reports: `true` when the loop ends, `false` when the reports run out
before it does (the parent stays blocked). -/
def wait_loop : List WaitStatus → Bool
  | [] => false
  | .exited _ :: _ => true
  | .signaled _ :: _ => true
  | .stopped _ :: rest => wait_loop rest

/-- The function `sh_launch`, as the parent sees it; what the child does before it becomes
another program or exits is recorded in the log. With no outcome left in `spawns` the
`fork` fails. -/
def sh_launch (args : Block StrPtr) (w : World) : Except Fault (Int × World) :=
  match w.spawns with
  | [] => .ok (1, perror (lit "sh") ({ w with errno := .EAGAIN }.emit .fork))
  | .forkFails e :: later =>
      .ok (1, perror (lit "sh") ({ w with spawns := later, errno := e }.emit .fork))
  | .execFails e :: later => do
      let file ← load args 0
      let av ← readArgv args
      let w := ((({ w with spawns := later }.emit .fork).emit (.childExec file av)).emit
        (.childPerror (lit "sh") e)).emit (.childExit EXIT_FAILURE)
      if wait_loop [.exited EXIT_FAILURE] then .ok (1, w) else .error .blocked
  | .runs reports :: later => do
      let file ← load args 0
      let av ← readArgv args
      let w := ({ w with spawns := later }.emit .fork).emit (.childExec file av)
      if wait_loop reports then .ok (1, w) else .error .blocked

/-! ## The built-in commands -/

/-- The table `builtin` of names. -/
def builtin : List Str := [lit "cd", lit "help", lit "exit"]

/-- The function `sh_cd`. The argument of `chdir` in the source is the value of the
comparison `args[1]!=0`, which is the integer 1 on this branch. -/
def sh_cd (args : Block StrPtr) (w : World) : Except Fault (Int × World) := do
  let a1 ← load args 1
  if a1 = .null then
    .ok (1, w.emit (.err (lit "sh: expected argument to \x27cd\x27\n")))
  else
    let r := chdir (.int (if a1 ≠ .null then 1 else 0)) w
    if r.1 ≠ 0 then .ok (1, perror (lit "sh") r.2) else .ok (1, r.2)

/-- The function `sh_help`. -/
def sh_help (_args : Block StrPtr) (w : World) : Except Fault (Int × World) :=
  let w := w.emit (.out (lit "Shell Help\n"))
  let w := w.emit (.out (lit ("You can execute programs by typing them and hitting enter.\n" ++
    "Shell also has other built-in commands such as:\n")))
  let w := builtin.foldl (fun w name => w.emit (.out (lit " " ++ name ++ lit "\n"))) w
  let w := w.emit (.out (lit "Use man command for info on other programs.\n"))
  .ok (1, w)

/-- The function `sh_exit`. -/
def sh_exit (_args : Block StrPtr) (w : World) : Except Fault (Int × World) := .ok (0, w)

/-- The table `builtin_func` of handlers, in the order of `builtin`. -/
def builtin_func : List (Block StrPtr → World → Except Fault (Int × World)) :=
  [sh_cd, sh_help, sh_exit]

/-- The number of built-ins. -/
def builtin_num : Nat := builtin.length

/-! ## Dispatch (`sh_execute`) and the command loop (`sh_loop`) -/

/-- The loop `for(i=0;i<builtin_num;i++)` of `sh_execute` from index `i` on, and the call of
`sh_launch` behind it; `strcmp(a, b)==0` is equality of the two strings. -/
def execute_loop (a0 : Str) (args : Block StrPtr) (w : World) :
    Nat → Nat → Except Fault (Int × World)
  | 0, _ => sh_launch args w
  | n + 1, i =>
      match builtin.get? i, builtin_func.get? i with
      | some name, some f => if a0 = name then f args w else execute_loop a0 args w n (i + 1)
      | _, _ => .error .outOfBounds

/-- The function `sh_execute`. -/
def sh_execute (args : Block StrPtr) (w : World) : Except Fault (Int × World) := do
  let a0 ← load args 0
  match a0 with
  | .null => .ok (1, w)
  | .str s => execute_loop s args w builtin_num 0

/-- One pass through the body of the `do ... while(status)` loop of `sh_loop`: prompt, read,
parse, execute (the two calls of `free` have no effect in the model). -/
def loop_body (m : Machine) (w : World) : Except Fault (Int × World) := do
  let w := w.emit (.out (lit "$$ "))
  let r ← sh_read_line m w.stdin
  let w := { w with stdin := r.2 }
  let args ← sh_split_line m r.1
  sh_execute args w

/-- The function `sh_loop`, for at most `n` passes: `some w` when the loop has ended in the
world `w`, `none` when it is still running after `n` passes. -/
def sh_loop (m : Machine) : Nat → World → Except Fault (Option World)
  | 0, _ => .ok none
  | n + 1, w => do
      let r ← loop_body m w
      if r.1 ≠ 0 then sh_loop m n r.2 else .ok (some r.2)

/-! ### Concrete targets and worlds -/

/-- A 64-bit target: pointers of 8 bytes, the string literal in the read-only data of the
program. -/
def lp64 : Machine := { ptrSize := 8, nlLit := 4202500 }

/-- A world at the start of a session: the given input, the working directory `/`, the
directories `/` and `/tmp`, the given outcomes of `fork`, nothing done yet. -/
def world0 (input : Str) (spawns : List Spawn) : World :=
  { stdin := input, cwd := lit "/", dirs := [lit "/", lit "/tmp"], spawns := spawns,
    errno := .other 0, log := [] }

/-- A line of 64 one-letter tokens. -/
def line64 : Str := (List.replicate 64 (lit "a ")).flatten

/-- A session typing `help`, then `exit`. -/
def helpThenExit : World := world0 (lit "help\nexit\n") []

/-- The number of calls of `waitpid` that the loop of `sh_launch` makes over these reports
before it ends: the loop of `wait_loop`, counting its passes; `none` when the reports run
out first. -/
def wait_count : List WaitStatus → Option Nat
  | [] => none
  | .exited _ :: _ => some 1
  | .signaled _ :: _ => some 1
  | .stopped _ :: rest => (wait_count rest).map (fun k => k + 1)

/-- A line spelled from tokens: each pair is the delimiters in front of a token and the
token; `trail` is what follows the last token. -/
def spaced (ts : List (Str × Str)) (trail : Str) : Str :=
  (ts.map (fun p => p.1 ++ p.2)).flatten ++ trail

/-! ### What the tokenizer is specified to compute -/

/-- Whether `c` is one of the five delimiters: space, tab, newline, carriage return, bell. -/
def isDelim (c : CChar) : Bool := c = 32 || c = 9 || c = 10 || c = 13 || c = 7

/-- The maximal runs of consecutive non-delimiter characters of `s`, from left to right: the
spans between delimiters, without the empty ones. -/
def maximalRuns (s : Str) : List Str := (s.splitOnP isDelim).filter (fun t => !t.isEmpty)

/-! ## Heap blocks and `int` arithmetic -/

theorem store_ok {α : Type} (b : Block α) (i : Nat) (v : α) (h : i < b.length) :
    store b i v = .ok (b.take i ++ some v :: b.drop (i + 1)) := by
  unfold store
  rw [if_pos h, List.set_eq_take_append_cons_drop, if_pos h]

theorem intAdd_ok (a b : Nat) (h : a + b ≤ INT_MAX) : intAdd a b = .ok (a + b) := by
  unfold intAdd
  rw [if_pos h]

theorem ok_bind {α β : Type} (a : α) (f : α → Except Fault β) :
    (Except.ok a >>= f) = f a := rfl

/-- The line buffer while `pre` has been read: these characters, then cells never written. -/
theorem store_fresh (pre : Str) (n : Nat) (c : CChar) (h : 0 < n) :
    store (pre.map some ++ List.replicate n none) pre.length c =
      .ok ((pre ++ [c]).map some ++ List.replicate (n - 1) none) := by
  rw [store_ok _ _ _ (by simp; omega)]
  have h1 : (pre.map some : Block CChar).length = pre.length := List.length_map _ _
  rw [List.take_append_eq_append_take, List.drop_append_eq_append_drop, h1,
    List.take_of_length_le (by omega), List.drop_of_length_le (by omega)]
  simp

theorem realloc_grow {α : Type} (b : Block α) (n : Nat) (h : b.length ≤ n) :
    realloc 1 b n = b ++ List.replicate (n - b.length) none := by
  unfold realloc
  rw [Nat.div_one, List.take_of_length_le h]

theorem read_loop_all (m : Machine) (hl : 256 ≤ m.nlLit) :
    ∀ (stream pre : Str) (size : Nat), pre.length < size →
      pre.length + stream.length + BUFFERSIZE ≤ INT_MAX →
      ∃ k, read_loop m stream size pre.length
          (pre.map some ++ List.replicate (size - pre.length) none) =
        .ok ((pre ++ stream).map some ++ some 0 :: List.replicate k none, []) := by
  have hB : BUFFERSIZE = 1024 := rfl
  have hI : INT_MAX = 2147483647 := rfl
  intro stream
  induction stream with
  | nil =>
    intro pre size h1 _
    refine ⟨size - pre.length - 1, ?_⟩
    simp only [read_loop]
    rw [store_fresh _ _ _ (by omega)]
    simp only [ok_bind]
    simp [pure, Except.pure]
  | cons c rest ih =>
    intro pre size h1 h2
    have hc : ¬ (c.val = m.nlLit) := by
      have := c.isLt
      omega
    simp only [List.length_cons] at h2
    simp only [read_loop]
    rw [if_neg hc, store_fresh _ _ _ (by omega), intAdd_ok _ _ (by omega)]
    simp only [ok_bind]
    have hlen : pre.length + 1 = (pre ++ [c]).length := by simp
    by_cases hg : pre.length + 1 ≥ size
    · rw [if_pos hg, intAdd_ok _ _ (by omega)]
      simp only [ok_bind]
      rw [realloc_grow _ _ (by simp; omega)]
      have e : size - pre.length - 1 = 0 := by omega
      rw [e, List.replicate_zero, List.append_nil, List.length_map, hlen]
      obtain ⟨k, hk⟩ := ih (pre ++ [c]) (size + BUFFERSIZE) (by rw [← hlen]; omega)
        (by rw [← hlen]; omega)
      refine ⟨k, ?_⟩
      rw [hk]
      simp
    · rw [if_neg hg, hlen]
      obtain ⟨k, hk⟩ := ih (pre ++ [c]) size (by rw [← hlen]; omega) (by rw [← hlen]; omega)
      have e : size - pre.length - 1 = size - (pre ++ [c]).length := by rw [← hlen]; omega
      refine ⟨k, ?_⟩
      rw [e, hk]
      simp

theorem read_line_all (m : Machine) (hl : 256 ≤ m.nlLit) (stream : Str)
    (h : stream.length + BUFFERSIZE ≤ INT_MAX) :
    ∃ k, sh_read_line m stream =
      .ok (stream.map some ++ some 0 :: List.replicate k none, []) := by
  have := read_loop_all m hl stream [] BUFFERSIZE (by simp [BUFFERSIZE]) (by simpa using h)
  simpa [sh_read_line, malloc] using this

/-! ## The tokenizer -/

theorem mem_DELIM (c : CChar) : decide (c ∈ DELIM) = isDelim c := by
  simp [DELIM, isDelim, Bool.or_assoc]

theorem strtok_eq (s : Str) :
    strtok s DELIM =
      if s.dropWhile isDelim = [] then (none, [])
      else (some ((s.dropWhile isDelim).takeWhile (fun c => !isDelim c)),
            ((s.dropWhile isDelim).dropWhile (fun c => !isDelim c)).drop 1) := by
  unfold strtok
  simp only [mem_DELIM]

theorem maximalRuns_nil : maximalRuns [] = [] := by
  simp [maximalRuns]

theorem maximalRuns_cons_delim (c : CChar) (s : Str) (h : isDelim c = true) :
    maximalRuns (c :: s) = maximalRuns s := by
  simp [maximalRuns, List.splitOnP_cons, h]

theorem maximalRuns_dropWhile (s : Str) : maximalRuns (s.dropWhile isDelim) = maximalRuns s := by
  induction s with
  | nil => rfl
  | cons c s ih =>
    by_cases h : isDelim c = true
    · rw [List.dropWhile_cons_of_pos h, ih, maximalRuns_cons_delim c s h]
    · rw [List.dropWhile_cons_of_neg h]

theorem maximalRuns_token (s : Str) (h0 : s ≠ []) (h : ∀ c, s.head? = some c → isDelim c = false) :
    maximalRuns s = s.takeWhile (fun c => !isDelim c) ::
      maximalRuns ((s.dropWhile (fun c => !isDelim c)).drop 1) := by
  have hsplit := List.takeWhile_append_dropWhile (fun c => !isDelim c) s
  have hne : s.takeWhile (fun c => !isDelim c) ≠ [] := by
    cases s with
    | nil => exact absurd rfl h0
    | cons c s => simp [List.takeWhile_cons, h c rfl]
  have hall : ∀ x ∈ s.takeWhile (fun c => !isDelim c), ¬ isDelim x = true := by
    intro x hx
    have := List.mem_takeWhile_imp hx
    simpa using this
  cases hr : s.dropWhile (fun c => !isDelim c) with
  | nil =>
    rw [hr, List.append_nil] at hsplit
    rw [hsplit] at hall hne ⊢
    simp only [List.drop_nil, maximalRuns_nil]
    unfold maximalRuns
    rw [List.splitOnP_eq_single isDelim _ hall]
    simp [hne]
  | cons d r =>
    have hd : isDelim d = true := by
      have := List.head_dropWhile_not (fun c => !isDelim c) s (by rw [hr]; simp)
      simpa [hr] using this
    rw [hr] at hsplit
    conv_lhs => rw [← hsplit]
    unfold maximalRuns
    rw [List.splitOnP_first isDelim _ hall d hd]
    simp [hne]


theorem strtok_cases (s : Str) :
    (strtok s DELIM = (none, []) ∧ maximalRuns s = []) ∨
    (∃ t rest, strtok s DELIM = (some t, rest) ∧ maximalRuns s = t :: maximalRuns rest ∧
      rest.length < s.length) := by
  rw [strtok_eq]
  by_cases h : s.dropWhile isDelim = []
  · left
    refine ⟨by simp [h], ?_⟩
    rw [← maximalRuns_dropWhile, h, maximalRuns_nil]
  · right
    refine ⟨_, _, by rw [if_neg h], ?_, ?_⟩
    · rw [← maximalRuns_dropWhile s]
      apply maximalRuns_token _ h
      intro c hc
      have := List.head_dropWhile_not isDelim s h
      rw [List.head?_eq_head h] at hc
      cases hc
      simpa using this
    · have h1 : (s.dropWhile isDelim).length ≤ s.length := (List.dropWhile_sublist _).length_le
      have h2 : ((s.dropWhile isDelim).dropWhile (fun c => !isDelim c)).length
          ≤ (s.dropWhile isDelim).length := (List.dropWhile_sublist _).length_le
      have h3 : 0 < (s.dropWhile isDelim).length := List.length_pos.mpr h
      rw [List.length_drop]
      omega

theorem store_oob {α : Type} (b : Block α) (i : Nat) (v : α) (h : b.length ≤ i) :
    store b i v = .error .outOfBounds := by
  unfold store
  rw [if_neg (by omega)]

theorem take_succ_stored {α : Type} (l : List α) (i : Nat) (x : α) (h : i < l.length) :
    (l.take i ++ x :: l.drop (i + 1)).take (i + 1) = l.take i ++ [x] := by
  have ht : (l.take i).length = i := by rw [List.length_take]; omega
  rw [List.take_append_eq_append_take, ht, List.take_of_length_le (by omega)]
  simp

theorem drop_stored {α : Type} (l : List α) (i k : Nat) (x : α) (h : i < l.length) :
    (l.take i ++ x :: l.drop (i + 1)).drop (i + 1 + k) = l.drop (i + 1 + k) := by
  have ht : (l.take i).length = i := by rw [List.length_take]; omega
  rw [List.drop_append_eq_append_drop, ht, List.drop_of_length_le (by omega)]
  have : i + 1 + k - i = k + 1 := by omega
  rw [this, List.nil_append, List.drop_succ_cons, List.drop_drop]

theorem split_loop_small (m : Machine) :
    ∀ (fuel : Nat) (s : Str) (position : Nat) (tokens : Block StrPtr),
      s.length < fuel → position + (maximalRuns s).length < tokens.length →
      tokens.length ≤ TOKENSIZE →
      split_loop m fuel (strtok s DELIM).1 (strtok s DELIM).2 TOKENSIZE position tokens =
        .ok (tokens.take position ++ argv (maximalRuns s) ++
          tokens.drop (position + (maximalRuns s).length + 1)) := by
  intro fuel
  induction fuel with
  | zero => intro s _ _ h; exact absurd h (Nat.not_lt_zero _)
  | succ fuel ih =>
    intro s position tokens hf hp hc
    rcases strtok_cases s with ⟨h1, h2⟩ | ⟨t, rest, h1, h2, h3⟩
    · rw [h1, h2]
      rw [h2] at hp
      simp only [split_loop, argv, List.map_nil, List.nil_append, List.length_nil, Nat.add_zero]
      rw [store_ok _ _ _ (by simpa using hp)]
      simp
    · rw [h1]
      rw [h2] at hp ⊢
      simp only [List.length_cons] at hp
      simp only [split_loop]
      rw [store_ok _ _ _ (by omega)]
      have hi : intAdd position 1 = .ok (position + 1) := by
        apply intAdd_ok
        unfold TOKENSIZE at hc
        unfold INT_MAX
        omega
      simp only [bind, Except.bind, hi]
      have hlt : ¬ (position + 1 ≥ TOKENSIZE) := by omega
      rw [if_neg hlt]
      have hlen : (List.take position tokens ++
          some (StrPtr.str t) :: List.drop (position + 1) tokens).length = tokens.length := by
        simp only [List.length_append, List.length_take, List.length_cons, List.length_drop]
        omega
      rw [ih rest (position + 1) _ (by omega) (by rw [hlen]; omega) (by rw [hlen]; exact hc)]
      rw [take_succ_stored _ _ _ (by omega), Nat.add_assoc (position + 1),
        drop_stored _ _ _ _ (by omega)]
      simp only [argv, List.map_cons, List.length_cons, List.append_assoc, List.singleton_append,
        List.cons_append]
      have e : position + 1 + ((maximalRuns rest).length + 1)
          = position + ((maximalRuns rest).length + 1) + 1 := by omega
      rw [e]
      simp only [List.nil_append]


theorem cstr_cline (s : Str) (h : ∀ c ∈ s, c ≠ 0) : cstr (cline s) = .ok s := by
  induction s with
  | nil => simp [cline, cstr]
  | cons c s ih =>
    have hc : c ≠ 0 := h c (List.mem_cons_self _ _)
    have ih2 := ih (fun x hx => h x (List.mem_cons_of_mem _ hx))
    simp only [cline] at ih2
    simp [cline, cstr, hc, ih2, Except.map]

theorem malloc_length {α : Type} (cell n : Nat) (h : 0 < cell) :
    (malloc cell (cell * n) : Block α).length = n := by
  simp [malloc, Nat.mul_div_cancel_left n h]

theorem strtok_token (s rest t : Str) (h : strtok s DELIM = (some t, rest)) :
    t ≠ [] ∧ ∀ c ∈ t, isDelim c = false := by
  rw [strtok_eq] at h
  split at h
  · cases h
  · next hne =>
    simp only [Prod.mk.injEq, Option.some.injEq] at h
    obtain ⟨h, -⟩ := h
    subst h
    constructor
    · intro hnil
      have hh := List.head_dropWhile_not isDelim s hne
      rw [List.takeWhile_eq_nil_iff] at hnil
      have := hnil (List.length_pos.mpr hne)
      rw [List.head_eq_getElem] at hh
      simp [hh] at this
    · intro c hc
      simpa using List.mem_takeWhile_imp hc

theorem maximalRuns_mem_aux : ∀ (n : Nat) (s : Str), s.length < n →
    ∀ t ∈ maximalRuns s, t ≠ [] ∧ ∀ c ∈ t, isDelim c = false := by
  intro n
  induction n with
  | zero => intro s h; exact absurd h (Nat.not_lt_zero _)
  | succ n ih =>
    intro s hs t ht
    rcases strtok_cases s with ⟨_, h2⟩ | ⟨t0, rest, h1, h2, h3⟩
    · rw [h2] at ht; cases ht
    · rw [h2] at ht
      rcases List.mem_cons.mp ht with rfl | ht
      · exact strtok_token s rest t h1
      · exact ih rest (by omega) t ht

theorem maximalRuns_mem (s : Str) :
    ∀ t ∈ maximalRuns s, t ≠ [] ∧ ∀ c ∈ t, isDelim c = false :=
  maximalRuns_mem_aux (s.length + 1) s (Nat.lt_succ_self _)

theorem split_line_small (m : Machine) (line : Block CChar) (s : Str)
    (hp : 0 < m.ptrSize) (hs : cstr line = .ok s) (hn : (maximalRuns s).length ≤ 63) :
    sh_split_line m line =
      .ok (argv (maximalRuns s) ++ List.replicate (63 - (maximalRuns s).length) none) := by
  unfold sh_split_line
  rw [hs]
  simp only [bind, Except.bind]
  rw [split_loop_small m _ s 0 _ (Nat.lt_succ_self _)
    (by rw [malloc_length _ _ hp]; unfold TOKENSIZE; omega)
    (by rw [malloc_length _ _ hp])]
  simp only [malloc, Nat.mul_div_cancel_left _ hp, List.take_zero, List.nil_append,
    List.drop_replicate, TOKENSIZE]
  congr 3
  omega

/-! ## The line reader at its limits -/

theorem realloc_length {α : Type} (cell : Nat) (b : Block α) (n : Nat) :
    (realloc cell b n).length = n / cell := by
  unfold realloc
  rw [List.length_append, List.length_take, List.length_replicate]
  omega

theorem stored_length {α : Type} (l : List α) (i : Nat) (x : α) (h : i < l.length) :
    (l.take i ++ x :: l.drop (i + 1)).length = l.length := by
  simp only [List.length_append, List.length_take, List.length_cons, List.length_drop]
  omega

theorem error_bind {α β : Type} (e : Fault) (f : α → Except Fault β) :
    (Except.error e >>= f) = Except.error e := rfl

theorem intAdd_overflow (a b : Nat) (h : INT_MAX < a + b) : intAdd a b = .error .intOverflow := by
  unfold intAdd
  rw [if_neg (by omega)]

theorem read_loop_overflow (m : Machine) (hl : 256 ≤ m.nlLit) :
    ∀ (stream : Str) (size position : Nat) (buffer : Block CChar),
      buffer.length = size → position < size → size % 1024 = 0 →
      size ≤ INT_MAX → INT_MAX - 1023 ≤ position + stream.length →
      read_loop m stream size position buffer = .error .intOverflow := by
  have hB : BUFFERSIZE = 1024 := rfl
  have hI : INT_MAX = 2147483647 := rfl
  intro stream
  induction stream with
  | nil =>
    intro size position buffer _ h2 h3 h4 h5
    simp only [List.length_nil] at h5
    omega
  | cons c rest ih =>
    intro size position buffer h1 h2 h3 h4 h5
    have hc : ¬ (c.val = m.nlLit) := by
      have := c.isLt
      omega
    simp only [List.length_cons] at h5
    simp only [read_loop]
    rw [if_neg hc, store_ok _ _ _ (by omega), intAdd_ok _ _ (by omega)]
    simp only [ok_bind]
    by_cases hg : position + 1 ≥ size
    · rw [if_pos hg]
      by_cases ho : size + BUFFERSIZE ≤ INT_MAX
      · rw [intAdd_ok _ _ ho]
        simp only [ok_bind]
        exact ih _ _ _ (by rw [realloc_length, Nat.div_one]) (by omega) (by rw [hB]; omega) ho
          (by omega)
      · rw [intAdd_overflow _ _ (by omega)]
        rfl
    · rw [if_neg hg]
      exact ih _ _ _ (by rw [stored_length _ _ _ (by omega)]; exact h1) (by omega) h3 h4 (by omega)

theorem read_line_overflow (m : Machine) (hl : 256 ≤ m.nlLit) (stream : Str)
    (h : INT_MAX - 1023 ≤ stream.length) : sh_read_line m stream = .error .intOverflow := by
  unfold sh_read_line
  exact read_loop_overflow m hl stream _ _ _ (by simp [malloc]) (by decide) (by decide)
    (by decide) (by omega)

theorem cstr_buffer (s : Str) (pad : Block CChar) :
    cstr (s.map some ++ some 0 :: pad) = .ok (s.takeWhile (fun c => c ≠ 0)) := by
  induction s with
  | nil => simp [cstr]
  | cons c s ih =>
    by_cases hc : c = 0
    · simp [cstr, hc]
    · simp only [List.map_cons, List.cons_append, cstr, if_neg hc]
      change Except.map _ (cstr (List.map some s ++ some 0 :: pad)) = _
      rw [ih]
      simp [List.takeWhile_cons, hc, Except.map]

theorem takeWhile_ne_zero (s : Str) (h : ∀ c ∈ s, c ≠ 0) : s.takeWhile (fun c => c ≠ 0) = s := by
  rw [List.takeWhile_eq_self_iff]
  intro c hc
  simpa using h c hc

/-! ## The tokenizer beyond its initial storage, and on blank lines -/

theorem split_loop_big (m : Machine) (hp : 2 ≤ m.ptrSize) :
    ∀ (fuel : Nat) (s : Str) (position : Nat) (tokens : Block StrPtr),
      s.length < fuel → tokens.length = TOKENSIZE → position < TOKENSIZE →
      TOKENSIZE ≤ position + (maximalRuns s).length →
      split_loop m fuel (strtok s DELIM).1 (strtok s DELIM).2 TOKENSIZE position tokens =
        .error .outOfBounds := by
  have hT : TOKENSIZE = 64 := rfl
  have hI : INT_MAX = 2147483647 := rfl
  intro fuel
  induction fuel with
  | zero => intro s _ _ h; exact absurd h (Nat.not_lt_zero _)
  | succ fuel ih =>
    intro s position tokens hf hlen hpos hn
    rcases strtok_cases s with ⟨_, h2⟩ | ⟨t, rest, h1, h2, h3⟩
    · rw [h2] at hn
      simp only [List.length_nil] at hn
      omega
    · rw [h1]
      rw [h2] at hn
      simp only [List.length_cons] at hn
      simp only [split_loop]
      rw [store_ok _ _ _ (by omega), intAdd_ok _ _ (by omega)]
      simp only [ok_bind]
      by_cases hg : position + 1 ≥ TOKENSIZE
      · rw [if_pos hg, intAdd_ok _ _ (by omega)]
        simp only [ok_bind]
        have hcells : (realloc m.ptrSize
            (List.take position tokens ++ some (StrPtr.str t) :: List.drop (position + 1) tokens)
            (TOKENSIZE + TOKENSIZE)).length ≤ position + 1 := by
          rw [realloc_length]
          have : (TOKENSIZE + TOKENSIZE) / m.ptrSize ≤ TOKENSIZE := by
            apply Nat.div_le_of_le_mul
            rw [hT]
            nlinarith
          omega
        cases fuel with
        | zero => omega
        | succ fuel =>
          cases hk : (strtok rest DELIM).1 with
          | none =>
            simp only [split_loop]
            exact store_oob _ _ _ hcells
          | some t2 =>
            simp only [split_loop]
            rw [store_oob _ _ _ hcells]
            rfl
      · rw [if_neg hg]
        exact ih rest (position + 1) _ (by omega)
          (by rw [stored_length _ _ _ (by omega)]; exact hlen) (by omega) (by omega)

theorem store_head {α : Type} (b b2 : Block α) (i : Nat) (v : α) (h : 0 < i)
    (hb : store b i v = .ok b2) : b2.head? = b.head? := by
  unfold store at hb
  split at hb
  · cases hb
    cases b with
    | nil => rfl
    | cons x xs =>
      cases i with
      | zero => omega
      | succ p => rfl
  · cases hb

theorem realloc_head (cell : Nat) (b : Block StrPtr) (n : Nat)
    (h : b.head? ≠ some (some .null)) : (realloc cell b n).head? ≠ some (some .null) := by
  unfold realloc
  cases b with
  | nil =>
    cases hk : n / cell with
    | zero => simp
    | succ k => simp [List.replicate_succ]
  | cons x xs =>
    cases hk : n / cell with
    | zero => simp
    | succ k => simpa using h

/-- Once a token is stored in the first cell, the end marker is never the first cell. -/
theorem split_loop_head (m : Machine) :
    ∀ (fuel : Nat) (token : Option Str) (rest : Str) (size position : Nat)
      (tokens b : Block StrPtr),
      0 < position → tokens.head? ≠ some (some .null) →
      split_loop m fuel token rest size position tokens = .ok b →
      b.head? ≠ some (some .null) := by
  intro fuel
  induction fuel with
  | zero =>
    intro token rest size position tokens b hpos hinv hb
    cases token with
    | none =>
      simp only [split_loop] at hb
      rw [store_head _ _ _ _ hpos hb]
      exact hinv
    | some t => simp [split_loop] at hb
  | succ fuel ih =>
    intro token rest size position tokens b hpos hinv hb
    cases token with
    | none =>
      simp only [split_loop] at hb
      rw [store_head _ _ _ _ hpos hb]
      exact hinv
    | some t =>
      simp only [split_loop] at hb
      cases h1 : store tokens position (StrPtr.str t) with
      | error e => rw [h1] at hb; cases hb
      | ok tokens2 =>
        have hh := store_head _ _ _ _ hpos h1
        rw [h1] at hb
        simp only [ok_bind] at hb
        cases h2 : intAdd position 1 with
        | error e => rw [h2] at hb; cases hb
        | ok p2 =>
          have hp2 : 0 < p2 := by
            unfold intAdd at h2
            split at h2
            · cases h2; omega
            · cases h2
          rw [h2] at hb
          simp only [ok_bind] at hb
          split at hb
          · cases h3 : intAdd size TOKENSIZE with
            | error e => rw [h3] at hb; cases hb
            | ok size2 =>
              rw [h3] at hb
              simp only [ok_bind] at hb
              exact ih _ _ _ _ _ b hp2 (realloc_head _ _ _ (by rw [hh]; exact hinv)) hb
          · exact ih _ _ _ _ _ b hp2 (by rw [hh]; exact hinv) hb

theorem all_delim_iff (s : Str) :
    (∀ c ∈ s, isDelim c = true) ↔ s.dropWhile isDelim = [] := by
  rw [List.dropWhile_eq_nil_iff]

theorem readArgv_null_iff (b : Block StrPtr) :
    readArgv b = .ok [] ↔ b.head? = some (some .null) := by
  cases b with
  | nil => simp [readArgv]
  | cons x xs =>
    cases x with
    | none => simp [readArgv]
    | some p =>
      cases p with
      | null => simp [readArgv]
      | str t =>
        simp only [readArgv, List.head?_cons]
        cases readArgv xs <;> simp [Except.map]

/-! ## The dispatcher and the built-ins -/

theorem lit_cd : lit "cd" = [99, 100] := by decide
theorem lit_help : lit "help" = [104, 101, 108, 112] := by decide
theorem lit_exit : lit "exit" = [101, 120, 105, 116] := by decide

theorem load_argv_zero_nil (pad : Block StrPtr) : load (argv [] ++ pad) 0 = .ok .null := rfl

theorem load_argv_zero_cons (t : Str) (ts : List Str) (pad : Block StrPtr) :
    load (argv (t :: ts) ++ pad) 0 = .ok (.str t) := rfl

theorem load_argv_one_nil (t : Str) (pad : Block StrPtr) :
    load (argv [t] ++ pad) 1 = .ok .null := rfl

theorem load_argv_one_cons (t d : Str) (ts : List Str) (pad : Block StrPtr) :
    load (argv (t :: d :: ts) ++ pad) 1 = .ok (.str d) := rfl

theorem readArgv_argv (ts : List Str) (pad : Block StrPtr) :
    readArgv (argv ts ++ pad) = .ok ts := by
  induction ts with
  | nil => rfl
  | cons t ts ih =>
    change Except.map _ (readArgv (argv ts ++ pad)) = _
    rw [ih]
    rfl

theorem execute_nil (pad : Block StrPtr) (w : World) :
    sh_execute (argv [] ++ pad) w = .ok (1, w) := rfl

theorem execute_cons (t : Str) (ts : List Str) (pad : Block StrPtr) (w : World) :
    sh_execute (argv (t :: ts) ++ pad) w =
      if t = lit "cd" then sh_cd (argv (t :: ts) ++ pad) w
      else if t = lit "help" then sh_help (argv (t :: ts) ++ pad) w
      else if t = lit "exit" then sh_exit (argv (t :: ts) ++ pad) w
      else sh_launch (argv (t :: ts) ++ pad) w := by
  unfold sh_execute
  rw [load_argv_zero_cons]
  simp only [ok_bind, builtin_num, builtin, List.length_cons, List.length_nil, execute_loop,
    builtin_func, List.get?_cons_zero, List.get?_cons_succ, Nat.zero_add]


theorem cd_no_argument (t : Str) (pad : Block StrPtr) (w : World) :
    sh_cd (argv [t] ++ pad) w =
      .ok (1, w.emit (.err (lit "sh: expected argument to \x27cd\x27\n"))) := rfl

theorem cd_argument (t d : Str) (ts : List Str) (pad : Block StrPtr) (w : World) :
    sh_cd (argv (t :: d :: ts) ++ pad) w =
      .ok (1, perror (lit "sh") { w.emit (.chdir (.int 1)) with errno := .EFAULT }) := rfl

theorem help_result (args : Block StrPtr) (w : World) :
    sh_help args w = .ok (1, { w with log := w.log ++
      [.out (lit "Shell Help\n"),
       .out (lit ("You can execute programs by typing them and hitting enter.\n" ++
          "Shell also has other built-in commands such as:\n")),
       .out (lit " " ++ lit "cd" ++ lit "\n"),
       .out (lit " " ++ lit "help" ++ lit "\n"),
       .out (lit " " ++ lit "exit" ++ lit "\n"),
       .out (lit "Use man command for info on other programs.\n")] }) := by
  simp [sh_help, builtin, World.emit]

/-- A built-in leaves the outcomes of `fork` untouched and adds no `fork` to the log. -/
theorem builtin_no_fork (t : Str) (ts : List Str) (pad : Block StrPtr) (w : World)
    (f : Block StrPtr → World → Except Fault (Int × World)) (hf : f ∈ builtin_func) :
    ∃ st w2 es, f (argv (t :: ts) ++ pad) w = .ok (st, w2) ∧ w2.spawns = w.spawns ∧
      w2.log = w.log ++ es ∧ Effect.fork ∉ es := by
  simp only [builtin_func, List.mem_cons, List.mem_singleton, List.not_mem_nil, or_false] at hf
  rcases hf with rfl | rfl | rfl
  · cases ts with
    | nil =>
      rw [cd_no_argument]
      exact ⟨_, _, [_], rfl, rfl, rfl, by simp⟩
    | cons d ts =>
      rw [cd_argument]
      exact ⟨_, _, [.chdir (.int 1), .perror (lit "sh") .EFAULT], rfl, rfl,
        by simp [perror, World.emit], by simp⟩
  · rw [help_result]
    exact ⟨_, _, _, rfl, rfl, rfl, by simp⟩
  · exact ⟨_, _, [], rfl, rfl, by simp, by simp⟩

/-! ## The command loop -/

/-- One pass of the command loop takes all the input there is: the line it parses is the
whole rest of the stream. -/
theorem loop_body_all (m : Machine) (hl : 256 ≤ m.nlLit) (hp : 0 < m.ptrSize) (w : World)
    (h1 : w.stdin.length + BUFFERSIZE ≤ INT_MAX)
    (h2 : (maximalRuns (w.stdin.takeWhile (fun c => c ≠ 0))).length ≤ 63) :
    loop_body m w =
      sh_execute (argv (maximalRuns (w.stdin.takeWhile (fun c => c ≠ 0))) ++
          List.replicate (63 - (maximalRuns (w.stdin.takeWhile (fun c => c ≠ 0))).length) none)
        { w.emit (.out (lit "$$ ")) with stdin := [] } := by
  obtain ⟨k, hk⟩ := read_line_all m hl w.stdin h1
  unfold loop_body
  simp only [World.emit, hk, ok_bind]
  rw [split_line_small m _ _ hp (cstr_buffer _ _) h2]
  rfl

theorem loop_body_eof (m : Machine) (hl : 256 ≤ m.nlLit) (hp : 0 < m.ptrSize) (w : World)
    (h : w.stdin = []) :
    loop_body m w = .ok (1, w.emit (.out (lit "$$ "))) := by
  rw [loop_body_all m hl hp w (by rw [h]; decide) (by rw [h]; decide)]
  simp only [h, List.takeWhile_nil, maximalRuns_nil]
  rw [execute_nil]
  cases w
  simp only [World.emit] at h ⊢
  rw [h]

theorem loop_eof (m : Machine) (hl : 256 ≤ m.nlLit) (hp : 0 < m.ptrSize) :
    ∀ (n : Nat) (w : World), w.stdin = [] → sh_loop m n w = .ok none := by
  intro n
  induction n with
  | zero => intro w _; rfl
  | succ n ih =>
    intro w h
    simp only [sh_loop]
    rw [loop_body_eof m hl hp w h]
    simp only [ok_bind]
    rw [if_pos (by decide)]
    exact ih _ h

/-! ## Waiting for the child -/

theorem wait_loop_eq_count (reports : List WaitStatus) :
    wait_loop reports = (wait_count reports).isSome := by
  induction reports with
  | nil => rfl
  | cons st rest ih =>
    cases st with
    | exited c => rfl
    | signaled c => rfl
    | stopped c =>
      simp only [wait_loop, wait_count, ih]
      cases wait_count rest <;> rfl

theorem wait_count_stops (stops : List Nat) (tail : List WaitStatus) :
    wait_count (stops.map .stopped ++ tail) =
      (wait_count tail).map (fun k => stops.length + k) := by
  induction stops with
  | nil =>
    cases h : wait_count tail with
    | none => simp [h]
    | some k => simp [h]
  | cons s stops ih =>
    change Option.map (fun k => k + 1) (wait_count (stops.map .stopped ++ tail)) = _
    rw [ih]
    cases wait_count tail with
    | none => rfl
    | some k =>
      simp only [Option.map_some', List.length_cons, Option.some.injEq]
      omega

theorem wait_loop_stops (stops : List Nat) (tail : List WaitStatus) :
    wait_loop (stops.map .stopped ++ tail) = wait_loop tail := by
  rw [wait_loop_eq_count, wait_loop_eq_count, wait_count_stops]
  cases wait_count tail <;> rfl

theorem launch_fork_fails (t : Str) (ts : List Str) (pad : Block StrPtr) (w : World)
    (e : Errno) (later : List Spawn) :
    sh_launch (argv (t :: ts) ++ pad) { w with spawns := .forkFails e :: later } =
      .ok (1, { w with spawns := later, errno := e,
                       log := w.log ++ [.fork, .perror (lit "sh") e] }) := by
  simp [sh_launch, perror, World.emit]

theorem launch_exec_fails (t : Str) (ts : List Str) (pad : Block StrPtr) (w : World)
    (e : Errno) (later : List Spawn) :
    sh_launch (argv (t :: ts) ++ pad) { w with spawns := .execFails e :: later } =
      .ok (1, { w with spawns := later,
                       log := w.log ++ [.fork, .childExec (.str t) (t :: ts),
                         .childPerror (lit "sh") e, .childExit EXIT_FAILURE] }) := by
  simp only [sh_launch, load_argv_zero_cons, readArgv_argv, ok_bind, wait_loop, if_true]
  simp [World.emit]

theorem launch_runs (t : Str) (ts : List Str) (pad : Block StrPtr) (w : World)
    (reports : List WaitStatus) (later : List Spawn) :
    sh_launch (argv (t :: ts) ++ pad) { w with spawns := .runs reports :: later } =
      if wait_loop reports then
        .ok (1, { w with spawns := later,
                         log := w.log ++ [.fork, .childExec (.str t) (t :: ts)] })
      else .error .blocked := by
  simp only [sh_launch, load_argv_zero_cons, readArgv_argv, ok_bind]
  simp [World.emit]

/-! ## The command loop at end of input -/

theorem read_line_eof (m : Machine) :
    sh_read_line m [] = .ok (cline [] ++ List.replicate 1023 none, []) := by
  have h := store_fresh [] 1024 0 (by decide)
  simp only [List.map_nil, List.nil_append, List.length_nil] at h
  simp only [sh_read_line, read_loop, malloc, BUFFERSIZE, Nat.one_mul, Nat.div_one, h, ok_bind]
  rfl

theorem split_line_eof (m : Machine) (hp : 0 < m.ptrSize) (pad : Block CChar) :
    sh_split_line m (cline [] ++ pad) = .ok (argv [] ++ List.replicate 63 none) := by
  have h := split_line_small m (cline [] ++ pad) [] hp rfl (by decide)
  rw [maximalRuns_nil] at h
  exact h

theorem loop_body_at_eof (m : Machine) (hp : 0 < m.ptrSize) (w : World) (h : w.stdin = []) :
    loop_body m w = .ok (1, w.emit (.out (lit "$$ "))) := by
  unfold loop_body
  simp only [World.emit, h, read_line_eof, ok_bind, split_line_eof m hp, execute_nil]

theorem loop_at_eof (m : Machine) (hp : 0 < m.ptrSize) :
    ∀ (k : Nat) (w : World), w.stdin = [] → sh_loop m k w = .ok none := by
  intro k
  induction k with
  | zero => intro w _; rfl
  | succ k ih =>
    intro w h
    simp only [sh_loop]
    rw [loop_body_at_eof m hp w h]
    simp only [ok_bind]
    rw [if_pos (by decide)]
    exact ih _ h

/-! ## The stores of the line reader -/

theorem read_loop_safe (m : Machine) :
    ∀ (stream : Str) (size position : Nat) (buffer : Block CChar),
      buffer.length = size → position < size → size % 1024 = 0 →
      read_loop m stream size position buffer = .error .intOverflow ∨
      ∃ buf rest, read_loop m stream size position buffer = .ok (buf, rest) ∧
        size ≤ buf.length ∧ buf.length % 1024 = 0 := by
  have hB : BUFFERSIZE = 1024 := rfl
  intro stream
  induction stream with
  | nil =>
    intro size position buffer h1 h2 h3
    right
    simp only [read_loop]
    rw [store_ok _ _ _ (by omega)]
    refine ⟨_, _, rfl, ?_, ?_⟩ <;> rw [stored_length _ _ _ (by omega)] <;> omega
  | cons c rest ih =>
    intro size position buffer h1 h2 h3
    simp only [read_loop]
    by_cases hc : c.val = m.nlLit
    · right
      rw [if_pos hc, store_ok _ _ _ (by omega)]
      refine ⟨_, _, rfl, ?_, ?_⟩ <;> rw [stored_length _ _ _ (by omega)] <;> omega
    · rw [if_neg hc, store_ok _ _ _ (by omega)]
      simp only [ok_bind]
      by_cases hi : position + 1 ≤ INT_MAX
      · rw [intAdd_ok _ _ hi]
        simp only [ok_bind]
        by_cases hg : position + 1 ≥ size
        · rw [if_pos hg]
          by_cases ho : size + BUFFERSIZE ≤ INT_MAX
          · rw [intAdd_ok _ _ ho]
            simp only [ok_bind]
            rcases ih (size + BUFFERSIZE) (position + 1)
                (realloc 1 (List.take position buffer ++ some c :: List.drop (position + 1) buffer)
                  (size + BUFFERSIZE))
                (by rw [realloc_length, Nat.div_one]) (by omega) (by omega) with
              h | ⟨b, r, h, h4, h5⟩
            · exact Or.inl h
            · exact Or.inr ⟨b, r, h, by omega, h5⟩
          · rw [intAdd_overflow _ _ (by omega)]
            exact Or.inl rfl
        · rw [if_neg hg]
          exact ih size (position + 1) _ (by rw [stored_length _ _ _ (by omega)]; exact h1)
            (by omega) h3
      · rw [intAdd_overflow _ _ (by omega)]
        exact Or.inl rfl

/-! ## Lines spelled from tokens -/

theorem maximalRuns_delims_append (d s : Str) (hd : ∀ c ∈ d, isDelim c = true) :
    maximalRuns (d ++ s) = maximalRuns s := by
  induction d with
  | nil => rfl
  | cons c d ih =>
    rw [List.cons_append, maximalRuns_cons_delim _ _ (hd c (List.mem_cons_self _ _)),
      ih (fun x hx => hd x (List.mem_cons_of_mem _ hx))]

theorem maximalRuns_token_append (t rest : Str) (ht0 : t ≠ [])
    (ht : ∀ c ∈ t, isDelim c = false) (hr : ∀ c, rest.head? = some c → isDelim c = true) :
    maximalRuns (t ++ rest) = t :: maximalRuns rest := by
  have hall : ∀ x ∈ t, ¬ isDelim x = true := by
    intro x hx
    rw [ht x hx]
    decide
  cases rest with
  | nil =>
    rw [List.append_nil, maximalRuns_nil]
    unfold maximalRuns
    rw [List.splitOnP_eq_single isDelim _ hall]
    simp [ht0]
  | cons d r =>
    have hd : isDelim d = true := hr d rfl
    rw [maximalRuns_cons_delim d r hd]
    unfold maximalRuns
    rw [List.splitOnP_first isDelim _ hall d hd]
    simp [ht0]

theorem spaced_cons (p : Str × Str) (ps : List (Str × Str)) (trail : Str) :
    spaced (p :: ps) trail = p.1 ++ (p.2 ++ spaced ps trail) := by
  simp [spaced]

theorem maximalRuns_spaced :
    ∀ (ts : List (Str × Str)) (trail : Str),
      (∀ p ∈ ts, p.2 ≠ [] ∧ ∀ c ∈ p.2, isDelim c = false) →
      (∀ p ∈ ts, ∀ c ∈ p.1, isDelim c = true) →
      (∀ p ∈ ts.tail, p.1 ≠ []) →
      (∀ c ∈ trail, isDelim c = true) →
      maximalRuns (spaced ts trail) = ts.map (fun p => p.2) := by
  intro ts
  induction ts with
  | nil =>
    intro trail _ _ _ htrail
    have := maximalRuns_delims_append trail [] htrail
    rw [List.append_nil, maximalRuns_nil] at this
    simpa [spaced] using this
  | cons p ps ih =>
    intro trail htok hgap hsep htrail
    rw [spaced_cons, maximalRuns_delims_append _ _ (hgap p (List.mem_cons_self _ _)),
      maximalRuns_token_append _ _ (htok p (List.mem_cons_self _ _)).1
        (htok p (List.mem_cons_self _ _)).2 ?_,
      ih trail (fun q hq => htok q (List.mem_cons_of_mem _ hq))
        (fun q hq => hgap q (List.mem_cons_of_mem _ hq))
        (fun q hq => hsep q (List.mem_of_mem_tail hq)) htrail]
    · rfl
    · intro c hc
      cases ps with
      | nil =>
        simp only [spaced, List.map_nil, List.flatten_nil, List.nil_append] at hc
        exact htrail c (List.mem_of_mem_head? hc)
      | cons q qs =>
        have hq1 : q.1 ≠ [] := hsep q (by simp)
        have hq2 := hgap q (List.mem_cons_of_mem _ (List.mem_cons_self _ _))
        rw [spaced_cons] at hc
        cases hq : q.1 with
        | nil => exact absurd hq hq1
        | cons x xs =>
          rw [hq] at hc hq2
          simp only [List.cons_append, List.head?_cons, Option.some.injEq] at hc
          subst hc
          exact hq2 _ (List.mem_cons_self _ _)

theorem spaced_no_nul (ts : List (Str × Str)) (trail : Str)
    (htok : ∀ p ∈ ts, ∀ c ∈ p.2, c ≠ 0)
    (hgap : ∀ p ∈ ts, ∀ c ∈ p.1, isDelim c = true)
    (htrail : ∀ c ∈ trail, isDelim c = true) :
    ∀ c ∈ spaced ts trail, c ≠ 0 := by
  have hz : ∀ c : CChar, isDelim c = true → c ≠ 0 := by
    intro c hc h0
    subst h0
    revert hc
    decide
  intro c hc
  simp only [spaced, List.mem_append, List.mem_flatten, List.mem_map] at hc
  rcases hc with ⟨l, ⟨p, hp, rfl⟩, hcl⟩ | hc
  · rcases List.mem_append.mp hcl with h | h
    · exact hz c (hgap p hp c h)
    · exact htok p hp c h
  · exact hz c (htrail c hc)

/-! ## When the wait never ends -/

theorem wait_loop_false_iff (reports : List WaitStatus) :
    wait_loop reports = false ↔ ∀ st ∈ reports, ∃ sig, st = WaitStatus.stopped sig := by
  induction reports with
  | nil => simp [wait_loop]
  | cons st rest ih =>
    cases st with
    | exited c =>
      simp only [wait_loop, List.mem_cons]
      constructor
      · intro h; cases h
      · intro h
        obtain ⟨sig, hs⟩ := h _ (Or.inl rfl)
        cases hs
    | signaled c =>
      simp only [wait_loop, List.mem_cons]
      constructor
      · intro h; cases h
      · intro h
        obtain ⟨sig, hs⟩ := h _ (Or.inl rfl)
        cases hs
    | stopped c =>
      simp only [wait_loop, ih, List.mem_cons]
      constructor
      · intro h st hst
        rcases hst with rfl | hst
        · exact ⟨c, rfl⟩
        · exact h st hst
      · intro h st hst
        exact h st (Or.inr hst)

/-- The two ways `sh_launch` can go on a non-empty token sequence: the child runs a program
and is only ever reported as stopped, and the parent stays in `waitpid`; or 1 is returned. -/
theorem launch_cases (t : Str) (ts : List Str) (pad : Block StrPtr) (w : World) :
    (sh_launch (argv (t :: ts) ++ pad) w = .error .blocked ∧
      ∃ reports later, w.spawns = .runs reports :: later ∧
        ∀ st ∈ reports, ∃ sig, st = WaitStatus.stopped sig) ∨
    ((∃ w2, sh_launch (argv (t :: ts) ++ pad) w = .ok (1, w2)) ∧
      ¬ ∃ reports later, w.spawns = .runs reports :: later ∧
        ∀ st ∈ reports, ∃ sig, st = WaitStatus.stopped sig) := by
  unfold sh_launch
  cases hs : w.spawns with
  | nil =>
    right
    exact ⟨⟨_, rfl⟩, by simp⟩
  | cons sp later =>
    cases sp with
    | forkFails e =>
      right
      exact ⟨⟨_, rfl⟩, by simp⟩
    | execFails e =>
      right
      simp only [load_argv_zero_cons, readArgv_argv, ok_bind, wait_loop, if_true]
      exact ⟨⟨_, rfl⟩, by simp⟩
    | runs reports =>
      simp only [load_argv_zero_cons, readArgv_argv, ok_bind]
      cases hw : wait_loop reports with
      | false =>
        left
        refine ⟨by simp, reports, later, rfl, (wait_loop_false_iff reports).mp hw⟩
      | true =>
        right
        refine ⟨⟨_, rfl⟩, ?_⟩
        rintro ⟨r2, l2, h1, h2⟩
        simp only [List.cons.injEq, Spawn.runs.injEq] at h1
        obtain ⟨rfl, -⟩ := h1
        rw [(wait_loop_false_iff reports).mpr h2] at hw
        cases hw

/-! ## The claims -/

/-- C1: on a line of at most 63 tokens `sh_split_line` returns the array that holds, from
left to right, the maximal runs of non-delimiter characters of the line and then the end
marker `NULL` (the cells behind it were never written); no token is empty and no token
contains a delimiter. -/
theorem split_line_returns_maximal_runs (m : Machine) (line : Block CChar) (s : Str)
    (hp : 0 < m.ptrSize) (hs : cstr line = .ok s) (hn : (maximalRuns s).length ≤ 63) :
    sh_split_line m line =
        .ok (argv (maximalRuns s) ++ List.replicate (63 - (maximalRuns s).length) none) ∧
      ∀ t ∈ maximalRuns s, t ≠ [] ∧ ∀ c ∈ t, isDelim c = false :=
  ⟨split_line_small m line s hp hs hn, maximalRuns_mem s⟩

/-- The line `  ls -l<TAB>/tmp <LF>` on the 64-bit target: the tokens are `ls`, `-l`, `/tmp`. -/
theorem split_line_returns_maximal_runs_witness :
    (0 < lp64.ptrSize ∧ cstr (cline (lit "  ls -l\t/tmp \n")) = .ok (lit "  ls -l\t/tmp \n") ∧
      (maximalRuns (lit "  ls -l\t/tmp \n")).length ≤ 63) ∧
    maximalRuns (lit "  ls -l\t/tmp \n") = [lit "ls", lit "-l", lit "/tmp"] ∧
    sh_split_line lp64 (cline (lit "  ls -l\t/tmp \n")) =
      .ok (argv (maximalRuns (lit "  ls -l\t/tmp \n")) ++
        List.replicate (63 - (maximalRuns (lit "  ls -l\t/tmp \n")).length) none) :=
  ⟨⟨by decide, by rfl, by decide⟩, by decide,
    (split_line_returns_maximal_runs lp64 (cline (lit "  ls -l\t/tmp \n"))
      (lit "  ls -l\t/tmp \n") (by decide) (by rfl) (by decide)).1⟩

/-- C2 (the code departs from the claim): `sh_read_line` does not stop at a newline. It
stores every character of the stream up to its end, newlines included, and leaves nothing
unread; the string it returns is the whole stream (up to a NUL, if the stream has one). -/
theorem read_line_runs_past_newline (m : Machine) (stream : Str) (hl : 256 ≤ m.nlLit)
    (hn : stream.length + BUFFERSIZE ≤ INT_MAX) :
    ∃ buf, sh_read_line m stream = .ok (buf, []) ∧
      cstr buf = .ok (stream.takeWhile (fun c => c ≠ 0)) := by
  obtain ⟨k, hk⟩ := read_line_all m hl stream hn
  exact ⟨_, hk, cstr_buffer _ _⟩

/-- The stream `ls<LF>exit<LF>` on the 64-bit target: the string returned is the whole stream. -/
theorem read_line_runs_past_newline_witness :
    (256 ≤ lp64.nlLit ∧ (lit "ls\nexit\n").length + BUFFERSIZE ≤ INT_MAX) ∧
    (lit "ls\nexit\n").takeWhile (fun c => c ≠ 0) = lit "ls\nexit\n" ∧
    ∃ buf, sh_read_line lp64 (lit "ls\nexit\n") = .ok (buf, []) ∧
      cstr buf = .ok ((lit "ls\nexit\n").takeWhile (fun c => c ≠ 0)) :=
  ⟨⟨by decide, by decide⟩, by decide,
    read_line_runs_past_newline lp64 (lit "ls\nexit\n") (by decide) (by decide)⟩

/-- C3 (the code departs from the claim): whatever argument `d` follows `cd`, `sh_cd` hands
`chdir` the value 1 of the comparison `args[1]!=0`, not `d`; the call fails, the working
directory stays what it was, the diagnostic of `perror` is emitted, and 1 is returned. -/
theorem cd_passes_comparison_to_chdir (d : Str) (ts : List Str) (pad : Block StrPtr)
    (w : World) :
    ∃ w2, sh_cd (argv (lit "cd" :: d :: ts) ++ pad) w = .ok (1, w2) ∧ w2.cwd = w.cwd ∧
      w2.log = w.log ++ [.chdir (.int 1), .perror (lit "sh") .EFAULT] := by
  rw [cd_argument]
  exact ⟨_, rfl, rfl, by simp [perror, World.emit]⟩

/-- C4, as the claim states it, fails: the external command `cat`, with a child that is only
ever reported as stopped, does not make `sh_execute` return "continue"; the parent stays in
`waitpid` and nothing is returned. -/
theorem execute_blocks_on_stopped_child :
    sh_execute (argv [lit "cat"]) (world0 [] [.runs [.stopped 19]]) = .error .blocked ∧
    ¬ ∃ w2, sh_execute (argv [lit "cat"]) (world0 [] [.runs [.stopped 19]]) = .ok (1, w2) := by
  have h : sh_execute (argv [lit "cat"]) (world0 [] [.runs [.stopped 19]]) =
      .error .blocked := by
    rw [show argv [lit "cat"] = argv (lit "cat" :: []) ++ [] by simp, execute_cons,
      if_neg (by decide), if_neg (by decide), if_neg (by decide)]
    exact launch_runs (lit "cat") [] [] (world0 [] []) [.stopped 19] []
  refine ⟨h, ?_⟩
  rintro ⟨w2, h2⟩
  rw [h] at h2
  cases h2

/-- C4, amended: `sh_exit` returns 0 on every argument array. `sh_execute` returns nothing
exactly when token 0 is not a built-in and the child runs a program and is only ever
reported as stopped; in every other case (no token, a built-in, a failing `fork`, a failing
`execvp`, a child reported as exited or as ended by a signal) it returns 0 or 1, and 0
exactly when the token sequence is not empty and its token 0 is the string `exit`. -/
theorem execute_returns_unless_child_only_stops (ts : List Str) (pad : Block StrPtr) (w : World) :
    (∀ args : Block StrPtr, sh_exit args w = .ok (0, w)) ∧
    (sh_execute (argv ts ++ pad) w = .error .blocked ↔
      (∃ t, ts.head? = some t ∧ t ∉ builtin) ∧
      ∃ reports later, w.spawns = .runs reports :: later ∧
        ∀ st ∈ reports, ∃ sig, st = WaitStatus.stopped sig) ∧
    (sh_execute (argv ts ++ pad) w = .error .blocked ∨
      ∃ st w2, sh_execute (argv ts ++ pad) w = .ok (st, w2) ∧ (st = 0 ∨ st = 1) ∧
        (st = 0 ↔ ts.head? = some (lit "exit"))) := by
  refine ⟨fun _ => rfl, ?_⟩
  have hbi : ∀ t : Str, t ∈ builtin ↔ (t = lit "cd" ∨ t = lit "help" ∨ t = lit "exit") := by
    intro t
    simp [builtin]
  cases ts with
  | nil =>
    rw [execute_nil]
    refine ⟨⟨(fun h => by cases h), fun h => ?_⟩, Or.inr ⟨1, w, rfl, Or.inr rfl, by simp⟩⟩
    obtain ⟨⟨t, ht, -⟩, -⟩ := h
    simp at ht
  | cons t ts =>
    rw [execute_cons]
    have hhead : ∀ x, (t :: ts).head? = some x ↔ x = t := by
      intro x
      simp [eq_comm]
    by_cases h1 : t = lit "cd"
    · rw [if_pos h1]
      obtain ⟨st, w2, es, he, -⟩ := builtin_no_fork t ts pad w sh_cd (by simp [builtin_func])
      have hst : st = 1 := by
        cases ts with
        | nil => rw [cd_no_argument] at he; cases he; rfl
        | cons d ts => rw [cd_argument] at he; cases he; rfl
      subst hst
      rw [he]
      refine ⟨⟨(fun h => by cases h), fun h => ?_⟩, Or.inr ⟨1, w2, rfl, Or.inr rfl, ?_⟩⟩
      · obtain ⟨⟨x, hx, hn⟩, -⟩ := h
        rw [(hhead x).mp hx] at hn
        exact absurd ((hbi t).mpr (Or.inl h1)) hn
      · subst h1
        simp only [List.head?_cons, Option.some.injEq]
        decide
    · rw [if_neg h1]
      by_cases h2 : t = lit "help"
      · rw [if_pos h2, help_result]
        refine ⟨⟨(fun h => by cases h), fun h => ?_⟩, Or.inr ⟨1, _, rfl, Or.inr rfl, ?_⟩⟩
        · obtain ⟨⟨x, hx, hn⟩, -⟩ := h
          rw [(hhead x).mp hx] at hn
          exact absurd ((hbi t).mpr (Or.inr (Or.inl h2))) hn
        · subst h2
          simp only [List.head?_cons, Option.some.injEq]
          decide
      · rw [if_neg h2]
        by_cases h3 : t = lit "exit"
        · rw [if_pos h3]
          refine ⟨⟨(fun h => by cases h), fun h => ?_⟩, Or.inr ⟨0, w, rfl, Or.inl rfl, by simp [h3]⟩⟩
          obtain ⟨⟨x, hx, hn⟩, -⟩ := h
          rw [(hhead x).mp hx] at hn
          exact absurd ((hbi t).mpr (Or.inr (Or.inr h3))) hn
        · rw [if_neg h3]
          have hext : ∃ x, (t :: ts).head? = some x ∧ x ∉ builtin :=
            ⟨t, rfl, fun hm => by
              rcases (hbi t).mp hm with h | h | h
              · exact h1 h
              · exact h2 h
              · exact h3 h⟩
          rcases launch_cases t ts pad w with ⟨hb, hr⟩ | ⟨⟨w2, hw⟩, hn⟩
          · exact ⟨⟨fun _ => ⟨hext, hr⟩, fun _ => hb⟩, Or.inl hb⟩
          · rw [hw]
            exact ⟨⟨(fun h => by cases h), fun h => absurd h.2 hn⟩,
              Or.inr ⟨1, w2, rfl, Or.inr rfl, by simp [h3]⟩⟩

/-- The external command `cat` with a child reported as stopped and then as exited with
code 3: `sh_execute` returns 1. -/
theorem execute_returns_unless_child_only_stops_witness :
    ∃ w2, sh_execute (argv [lit "cat"] ++ [])
      (world0 [] [.runs [.stopped 19, .exited 3]]) = .ok (1, w2) := by
  obtain ⟨-, hb, hr⟩ :=
    execute_returns_unless_child_only_stops [lit "cat"] [] (world0 [] [.runs [.stopped 19, .exited 3]])
  rcases hr with h | ⟨st, w2, h, hst, hiff⟩
  · obtain ⟨-, reports, later, hs, hall⟩ := hb.mp h
    simp only [world0, List.cons.injEq, Spawn.runs.injEq] at hs
    obtain ⟨rfl, -⟩ := hs
    obtain ⟨sig, hsig⟩ := hall (.exited 3) (by simp)
    cases hsig
  · rcases hst with rfl | rfl
    · exact absurd (hiff.mp rfl) (by decide)
    · exact ⟨w2, h⟩

/-- C5: on a non-empty token sequence with token 0 `t`: when `t` is the `i`-th name of the
table `builtin`, `sh_execute` returns what the `i`-th handler of `builtin_func` returns on
the whole array, and this handler consumes no outcome of `fork` and logs no `fork`; when
`t` is none of the names, `sh_execute` returns what `sh_launch` returns on the whole array. -/
theorem execute_dispatches_in_table_order (t : Str) (ts : List Str) (pad : Block StrPtr)
    (w : World) :
    (∀ (i : Nat) (name : Str) (f : Block StrPtr → World → Except Fault (Int × World)),
      builtin.get? i = some name → builtin_func.get? i = some f → t = name →
        sh_execute (argv (t :: ts) ++ pad) w = f (argv (t :: ts) ++ pad) w ∧
        ∃ st w2 es, f (argv (t :: ts) ++ pad) w = .ok (st, w2) ∧ w2.spawns = w.spawns ∧
          w2.log = w.log ++ es ∧ Effect.fork ∉ es) ∧
    (t ∉ builtin →
      sh_execute (argv (t :: ts) ++ pad) w = sh_launch (argv (t :: ts) ++ pad) w) := by
  constructor
  · intro i name f hname hf ht
    refine ⟨?_, builtin_no_fork t ts pad w f (List.get?_mem hf)⟩
    rw [execute_cons]
    subst ht
    match i, hname, hf with
    | 0, hname, hf =>
      simp only [builtin, builtin_func, List.get?_cons_zero, Option.some.injEq] at hname hf
      subst hname hf
      rw [if_pos rfl]
    | 1, hname, hf =>
      simp only [builtin, builtin_func, List.get?_cons_zero, List.get?_cons_succ,
        Option.some.injEq] at hname hf
      subst hname hf
      rw [if_neg (by decide), if_pos rfl]
    | 2, hname, hf =>
      simp only [builtin, builtin_func, List.get?_cons_zero, List.get?_cons_succ,
        Option.some.injEq] at hname hf
      subst hname hf
      rw [if_neg (by decide), if_neg (by decide), if_pos rfl]
    | n + 3, hname, _ =>
      simp [builtin] at hname
  · intro h
    simp only [builtin, List.mem_cons, List.mem_singleton, List.not_mem_nil, or_false,
      not_or] at h
    rw [execute_cons, if_neg h.1, if_neg h.2.1, if_neg h.2.2]

/-- The tokens `help me` in a fresh world: entry 1 of the table, `sh_help`. -/
theorem execute_dispatches_in_table_order_witness :
    (builtin.get? 1 = some (lit "help") ∧ builtin_func.get? 1 = some sh_help ∧
      lit "help" = lit "help") ∧
    sh_execute (argv (lit "help" :: [lit "me"]) ++ []) (world0 [] []) =
      sh_help (argv (lit "help" :: [lit "me"]) ++ []) (world0 [] []) :=
  ⟨⟨rfl, rfl, rfl⟩,
    ((execute_dispatches_in_table_order (lit "help") [lit "me"] [] (world0 [] [])).1 1
      (lit "help") sh_help rfl rfl rfl).1⟩

/-- C6 (the code departs from the claim): on the input `help`, newline, `exit`, newline the
first pass of the loop takes both lines as one and returns "continue" with the input
exhausted; the loop is still running after any number of passes, so the `exit` of the
second line never stops it. -/
theorem loop_misses_exit_on_second_line :
    (∃ w1, loop_body lp64 helpThenExit = .ok (1, w1) ∧ w1.stdin = []) ∧
    ∀ n, sh_loop lp64 n helpThenExit = .ok none := by
  have hb : ∃ w1, loop_body lp64 helpThenExit = .ok (1, w1) ∧ w1.stdin = [] := by
    rw [loop_body_all lp64 (by decide) (by decide) helpThenExit (by decide) (by decide)]
    have e : maximalRuns (helpThenExit.stdin.takeWhile (fun c => c ≠ 0)) =
        [lit "help", lit "exit"] := by decide
    rw [e, execute_cons, if_neg (by decide), if_pos rfl, help_result]
    exact ⟨_, rfl, rfl⟩
  refine ⟨hb, ?_⟩
  obtain ⟨w1, h1, h2⟩ := hb
  intro n
  cases n with
  | zero => rfl
  | succ n =>
    simp only [sh_loop]
    rw [h1]
    simp only [ok_bind]
    rw [if_pos (by decide)]
    exact loop_eof lp64 (by decide) (by decide) n w1 h2

/-- C7 (the code departs from the claim): where a pointer takes two bytes or more, a line
of 64 tokens or more makes `sh_split_line` store outside the token array. The growth step
hands `realloc` the slot count 128 as a byte count, so the array shrinks to `128 / ptrSize`
slots, fewer than the 65 the next store needs. -/
theorem split_line_overruns_storage (m : Machine) (line : Block CChar) (s : Str)
    (hp : 2 ≤ m.ptrSize) (hs : cstr line = .ok s) (hn : 64 ≤ (maximalRuns s).length) :
    sh_split_line m line = .error .outOfBounds := by
  unfold sh_split_line
  rw [hs]
  simp only [ok_bind]
  exact split_loop_big m hp _ s 0 _ (Nat.lt_succ_self _) (malloc_length _ _ (by omega))
    (by decide) (by simpa [TOKENSIZE] using hn)

set_option maxRecDepth 20000 in
/-- The line of 64 tokens `a` on the 64-bit target. -/
theorem split_line_overruns_storage_witness :
    (2 ≤ lp64.ptrSize ∧ cstr (cline line64) = .ok line64 ∧
      64 ≤ (maximalRuns line64).length) ∧
    sh_split_line lp64 (cline line64) = .error .outOfBounds :=
  have h : cstr (cline line64) = .ok line64 := cstr_cline line64 (by decide)
  ⟨⟨by decide, h, by decide⟩,
    split_line_overruns_storage lp64 (cline line64) line64 (by decide) h (by decide)⟩

/-- C8, as the claim states it, fails for a stream of 2147482624 characters `a`: when
`position` reaches `size` = 2147482624 the addition `size += BUFFERSIZE` overflows `int`
and no string is returned. -/
theorem read_line_overflows_int :
    sh_read_line lp64 (List.replicate 2147482624 97) = .error .intOverflow :=
  read_line_overflow lp64 (by decide) _ (by rw [List.length_replicate]; decide)

/-- C8, amended: a stream of fewer than 2147482624 characters, none of them newline or NUL,
followed by end of stream, is returned whole and in order, however often the buffer grew. -/
theorem read_line_long_intact (m : Machine) (cs : Str) (hl : 256 ≤ m.nlLit)
    (hc : ∀ c ∈ cs, c ≠ 10 ∧ c ≠ 0) (hn : cs.length < 2147482624) :
    ∃ buf, sh_read_line m cs = .ok (buf, []) ∧ cstr buf = .ok cs := by
  obtain ⟨k, hk⟩ := read_line_all m hl cs (by unfold BUFFERSIZE INT_MAX; omega)
  refine ⟨_, hk, ?_⟩
  rw [cstr_buffer, takeWhile_ne_zero cs (fun c h => (hc c h).2)]

/-- The stream of 2000 characters `a` on the 64-bit target, which takes one growth step. -/
theorem read_line_long_intact_witness :
    (256 ≤ lp64.nlLit ∧ (∀ c ∈ List.replicate 2000 (97 : CChar), c ≠ 10 ∧ c ≠ 0) ∧
      (List.replicate 2000 (97 : CChar)).length < 2147482624) ∧
    ∃ buf, sh_read_line lp64 (List.replicate 2000 97) = .ok (buf, []) ∧
      cstr buf = .ok (List.replicate 2000 97) :=
  have h1 : ∀ c ∈ List.replicate 2000 (97 : CChar), c ≠ 10 ∧ c ≠ 0 := by
    intro c hc
    rw [List.eq_of_mem_replicate hc]
    decide
  have h2 : (List.replicate 2000 (97 : CChar)).length < 2147482624 := by
    rw [List.length_replicate]
    decide
  ⟨⟨by decide, h1, h2⟩, read_line_long_intact lp64 (List.replicate 2000 97) (by decide) h1 h2⟩

/-- C9: `sh_split_line` returns an array that holds the empty token sequence (its first
cell is the end marker) if and only if every character of the line is a delimiter, which
includes the empty line. -/
theorem split_line_empty_iff_blank (m : Machine) (line : Block CChar) (s : Str)
    (hp : 0 < m.ptrSize) (hs : cstr line = .ok s) :
    (∃ b, sh_split_line m line = .ok b ∧ readArgv b = .ok []) ↔
      ∀ c ∈ s, isDelim c = true := by
  rw [all_delim_iff]
  unfold sh_split_line
  rw [hs]
  simp only [ok_bind]
  rw [strtok_eq]
  constructor
  · rintro ⟨b, hb, hr⟩
    by_contra hne
    rw [if_neg hne] at hb
    simp only [split_loop] at hb
    rw [store_ok _ _ _ (by rw [malloc_length _ _ hp]; decide), intAdd_ok _ _ (by decide)] at hb
    simp only [ok_bind] at hb
    rw [readArgv_null_iff] at hr
    have key : ∀ (tokens : Block StrPtr) (size : Nat) tk rest,
        tokens.head? ≠ some (some .null) →
        split_loop m s.length tk rest size (0 + 1) tokens = .ok b → False := by
      intro tokens size tk rest h1 h2
      exact split_loop_head m _ _ _ _ _ _ b (by omega) h1 h2 hr
    split at hb
    · simp only [intAdd_ok _ _ (show TOKENSIZE + TOKENSIZE ≤ INT_MAX by decide), ok_bind] at hb
      exact key _ _ _ _ (realloc_head _ _ _ (by simp)) hb
    · exact key _ _ _ _ (by simp) hb
  · intro h
    rw [if_pos h]
    simp only [split_loop]
    rw [store_ok _ _ _ (by rw [malloc_length _ _ hp]; decide)]
    exact ⟨_, rfl, by simp [readArgv]⟩

/-- The line of a space, a tab, a carriage return and a space, on the 64-bit target. -/
theorem split_line_empty_iff_blank_witness :
    (0 < lp64.ptrSize ∧ cstr (cline (lit " \t\r ")) = .ok (lit " \t\r ")) ∧
    ((∃ b, sh_split_line lp64 (cline (lit " \t\r ")) = .ok b ∧ readArgv b = .ok []) ↔
      ∀ c ∈ lit " \t\r ", isDelim c = true) :=
  ⟨⟨by decide, by rfl⟩,
    split_line_empty_iff_blank lp64 (cline (lit " \t\r ")) (lit " \t\r ") (by decide) (by rfl)⟩

/-- C10: on the array of the empty token sequence `sh_execute` returns 1 and the world
is what it was: nothing is logged (no write, no `chdir`, no `fork`), no outcome of `fork` is
consumed, the working directory is the same. -/
theorem execute_empty_is_noop (pad : Block StrPtr) (w : World) :
    sh_execute (argv [] ++ pad) w = .ok (1, w) :=
  execute_nil pad w

/-- C11: on the tokens `cd` alone `sh_cd` returns 1; the only effect is the usage
diagnostic on the error stream: no `chdir` is requested and the working directory is what
it was. -/
theorem cd_without_argument (pad : Block StrPtr) (w : World) :
    sh_cd (argv [lit "cd"] ++ pad) w =
        .ok (1, w.emit (.err (lit "sh: expected argument to \x27cd\x27\n"))) ∧
      (w.emit (.err (lit "sh: expected argument to \x27cd\x27\n"))).cwd = w.cwd ∧
      (w.emit (.err (lit "sh: expected argument to \x27cd\x27\n"))).log =
        w.log ++ [.err (lit "sh: expected argument to \x27cd\x27\n")] :=
  ⟨cd_no_argument _ pad w, rfl, rfl⟩

/-- C12: on every argument array and in every world `sh_help` returns 1 and writes, after
the two banner lines and before the closing line, one line per name of the table `builtin`
in table order; the table is `cd`, `help`, `exit`. What is written depends neither on the
arguments nor on the world. -/
theorem help_lists_builtins (args : Block StrPtr) (w : World) :
    sh_help args w = .ok (1, { w with log := w.log ++
      ([.out (lit "Shell Help\n"),
        .out (lit ("You can execute programs by typing them and hitting enter.\n" ++
          "Shell also has other built-in commands such as:\n"))] ++
       builtin.map (fun name => Effect.out (lit " " ++ name ++ lit "\n")) ++
       [.out (lit "Use man command for info on other programs.\n")]) }) ∧
    builtin = [lit "cd", lit "help", lit "exit"] := by
  refine ⟨?_, rfl⟩
  rw [help_result]
  rfl

/-- C13: on every non-empty token sequence `sh_launch` returns 1 to the shell: when `fork`
fails (the parent calls `perror`, no child runs), when `execvp` fails (`perror` and the exit
with `EXIT_FAILURE` are the child's), and when the program ends with any exit code or by any
signal, after any number of stops. -/
theorem launch_always_continues (t : Str) (ts : List Str) (pad : Block StrPtr) (w : World)
    (later : List Spawn) (e : Errno) (stops : List Nat) (n : Nat) (more : List WaitStatus) :
    sh_launch (argv (t :: ts) ++ pad) { w with spawns := .forkFails e :: later } =
      .ok (1, { w with spawns := later, errno := e,
                       log := w.log ++ [.fork, .perror (lit "sh") e] }) ∧
    sh_launch (argv (t :: ts) ++ pad) { w with spawns := .execFails e :: later } =
      .ok (1, { w with spawns := later,
                       log := w.log ++ [.fork, .childExec (.str t) (t :: ts),
                         .childPerror (lit "sh") e, .childExit EXIT_FAILURE] }) ∧
    sh_launch (argv (t :: ts) ++ pad)
        { w with spawns := .runs (stops.map .stopped ++ .exited n :: more) :: later } =
      .ok (1, { w with spawns := later,
                       log := w.log ++ [.fork, .childExec (.str t) (t :: ts)] }) ∧
    sh_launch (argv (t :: ts) ++ pad)
        { w with spawns := .runs (stops.map .stopped ++ .signaled n :: more) :: later } =
      .ok (1, { w with spawns := later,
                       log := w.log ++ [.fork, .childExec (.str t) (t :: ts)] }) := by
  refine ⟨launch_fork_fails t ts pad w e later, launch_exec_fails t ts pad w e later, ?_, ?_⟩
  · rw [launch_runs, wait_loop_stops]
    rfl
  · rw [launch_runs, wait_loop_stops]
    rfl

/-- C14, as the claim states it, fails: for a child reported as stopped and then as exited
the loop calls `waitpid` twice, and for a child only ever reported as stopped the wait
does not end and `sh_launch` returns nothing. -/
theorem wait_goes_on_after_stop :
    wait_count [.stopped 19, .exited 0] = some 2 ∧
    sh_launch (argv [lit "cat"]) (world0 [] [.runs [.stopped 19]]) = .error .blocked := by
  constructor
  · rfl
  · rw [show argv [lit "cat"] = argv (lit "cat" :: []) ++ [] by simp]
    exact launch_runs (lit "cat") [] [] (world0 [] []) [.stopped 19] []

/-- C14, amended: the parent stops waiting at the first report that is a normal exit or a
termination by a signal, whatever lies behind it; every report of a stop before it costs one
more call of `waitpid`, and reports of stops alone never end the wait. -/
theorem wait_ends_at_exit_or_signal (stops : List Nat) (n : Nat) (more : List WaitStatus) :
    wait_count (stops.map .stopped ++ .exited n :: more) = some (stops.length + 1) ∧
    wait_count (stops.map .stopped ++ .signaled n :: more) = some (stops.length + 1) ∧
    wait_count (stops.map .stopped) = none ∧
    wait_loop (stops.map .stopped) = false := by
  have h := wait_count_stops stops []
  rw [List.append_nil] at h
  refine ⟨by rw [wait_count_stops]; rfl, by rw [wait_count_stops]; rfl, by rw [h]; rfl, ?_⟩
  rw [wait_loop_eq_count, h]
  rfl

/-- C16: at end of input a pass of the loop reads the empty line, splits it into the empty
token sequence, gets 1 from `sh_execute` and leaves the input at its end; so the loop is
still running after any number `k` of passes. -/
theorem loop_never_ends_at_eof (m : Machine) (w : World) (hp : 0 < m.ptrSize)
    (h : w.stdin = []) :
    (∃ buf args, sh_read_line m w.stdin = .ok (buf, []) ∧ cstr buf = .ok [] ∧
      sh_split_line m buf = .ok args ∧ readArgv args = .ok [] ∧
      ∀ w2, sh_execute args w2 = .ok (1, w2)) ∧
    loop_body m w = .ok (1, w.emit (.out (lit "$$ "))) ∧
    (w.emit (.out (lit "$$ "))).stdin = [] ∧
    ∀ k, sh_loop m k w = .ok none := by
  refine ⟨⟨cline [] ++ List.replicate 1023 none, argv [] ++ List.replicate 63 none,
    by rw [h]; exact read_line_eof m, by simp [cline, cstr], split_line_eof m hp _, by rfl,
    fun w2 => execute_nil _ w2⟩, loop_body_at_eof m hp w h, h, fun k => loop_at_eof m hp k w h⟩

/-- A world with no input left, on the 64-bit target. -/
theorem loop_never_ends_at_eof_witness :
    (0 < lp64.ptrSize ∧ (world0 [] []).stdin = []) ∧
    ∀ k, sh_loop lp64 k (world0 [] []) = .ok none :=
  ⟨⟨by decide, rfl⟩, (loop_never_ends_at_eof lp64 (world0 [] []) (by decide) rfl).2.2.2⟩

/-- C17: no store of `sh_read_line` falls outside the buffer, for a character or for the
terminator: on every stream the run either stops at an overflowing `int` addition, before
any further store, or returns a buffer whose capacity is a positive multiple of 1024. -/
theorem read_line_stores_in_bounds (m : Machine) (stream : Str) :
    sh_read_line m stream ≠ .error .outOfBounds ∧
    (sh_read_line m stream = .error .intOverflow ∨
      ∃ buf rest, sh_read_line m stream = .ok (buf, rest) ∧
        BUFFERSIZE ≤ buf.length ∧ buf.length % BUFFERSIZE = 0) := by
  have h := read_loop_safe m stream BUFFERSIZE 0 (malloc 1 (1 * BUFFERSIZE))
    (by simp [malloc]) (by decide) (by decide)
  unfold sh_read_line
  refine ⟨?_, h⟩
  rcases h with h | ⟨b, r, h, -⟩ <;> rw [h] <;> simp

/-- C18: a line spelled from at most 63 tokens, each non-empty and free of delimiters and
of NUL, with delimiters only around them and at least one delimiter between two tokens,
is split into exactly these tokens. -/
theorem split_line_round_trip (m : Machine) (ts : List (Str × Str)) (trail : Str)
    (hp : 0 < m.ptrSize) (hn : ts.length ≤ 63)
    (htok : ∀ p ∈ ts, p.2 ≠ [] ∧ ∀ c ∈ p.2, isDelim c = false ∧ c ≠ 0)
    (hgap : ∀ p ∈ ts, ∀ c ∈ p.1, isDelim c = true)
    (hsep : ∀ p ∈ ts.tail, p.1 ≠ [])
    (htrail : ∀ c ∈ trail, isDelim c = true) :
    sh_split_line m (cline (spaced ts trail)) =
      .ok (argv (ts.map (fun p => p.2)) ++ List.replicate (63 - ts.length) none) := by
  have hruns : maximalRuns (spaced ts trail) = ts.map (fun p => p.2) :=
    maximalRuns_spaced ts trail (fun p h => ⟨(htok p h).1, fun c hc => ((htok p h).2 c hc).1⟩)
      hgap hsep htrail
  have hc : cstr (cline (spaced ts trail)) = .ok (spaced ts trail) :=
    cstr_cline _ (spaced_no_nul ts trail (fun p h c hc => ((htok p h).2 c hc).2) hgap htrail)
  have h := split_line_small m _ _ hp hc (by rw [hruns, List.length_map]; exact hn)
  rw [hruns, List.length_map] at h
  exact h

set_option maxRecDepth 20000 in
/-- The tokens `ls`, `-l`, `/tmp` behind two spaces, joined by a space and by a space and
a tab, and followed by a newline. -/
theorem split_line_round_trip_witness :
    spaced [(lit "  ", lit "ls"), (lit " ", lit "-l"), (lit " \t", lit "/tmp")] (lit "\n") =
      lit "  ls -l \t/tmp\n" ∧
    sh_split_line lp64
        (cline (spaced [(lit "  ", lit "ls"), (lit " ", lit "-l"), (lit " \t", lit "/tmp")]
          (lit "\n"))) =
      .ok (argv ([(lit "  ", lit "ls"), (lit " ", lit "-l"), (lit " \t", lit "/tmp")].map
          (fun p => p.2)) ++
        List.replicate (63 - [(lit "  ", lit "ls"), (lit " ", lit "-l"),
          (lit " \t", lit "/tmp")].length) none) :=
  ⟨by decide,
    split_line_round_trip lp64 [(lit "  ", lit "ls"), (lit " ", lit "-l"), (lit " \t", lit "/tmp")]
      (lit "\n") (by decide) (by decide) (by decide) (by decide) (by decide) (by decide)⟩

end Sh
